import Mathlib

/-!
Shallow embedding of the blog's utility modules (`src/utils/posts.ts`,
`src/utils/path.ts`, `src/utils/llms.ts`, `src/utils/analytics.ts`).
Strings are modelled as `List Char`; JavaScript regular-expression
operations are modelled by executable scanners with the same semantics on
the character classes involved.
-/

namespace Blog

/-- JavaScript whitespace class (the ASCII part used by `trim` and `\s`). -/
def isWs (c : Char) : Bool :=
  c = ' ' || c = '\t' || c = '\n' || c = '\r' || c = '\x0b' || c = '\x0c'

/-- JavaScript `String.prototype.trim`: drop whitespace from both ends. -/
def trim (s : List Char) : List Char :=
  ((s.dropWhile isWs).reverse.dropWhile isWs).reverse

/-- Scanner for JavaScript `split(/\s+/)`: `inWs` records whether the
previous character was part of a whitespace run, `acc` holds the current
chunk reversed. -/
def splitWsCore : Bool → List Char → List Char → List (List Char)
  | _, [], acc => [acc.reverse]
  | inWs, c :: cs, acc =>
    if isWs c then
      if inWs then splitWsCore true cs acc
      else acc.reverse :: splitWsCore true cs []
    else splitWsCore false cs (c :: acc)

/-- JavaScript `s.split(/\s+/)`. -/
def splitWs (s : List Char) : List (List Char) :=
  splitWsCore false s []

/-- `countWords` from `src/utils/posts.ts`: `text.trim().split(/\s+/).length`. -/
def countWords (text : List Char) : Nat :=
  (splitWs (trim text)).length

/-- `WORDS_PER_MINUTE` from `src/utils/posts.ts`. -/
def WORDS_PER_MINUTE : Nat := 200

/-- `estimateReadingTime` from `src/utils/posts.ts`:
`Math.ceil(countWords(content) / WORDS_PER_MINUTE)`. -/
def estimateReadingTime (content : List Char) : Nat :=
  (countWords content + (WORDS_PER_MINUTE - 1)) / WORDS_PER_MINUTE

/-- Modelled from the spec: the number of whitespace-separated words of a
string, i.e. the number of maximal nonempty runs of non-whitespace
characters (`inTok` records whether the previous character was part of
such a run). -/
def countTokensCore : Bool → List Char → Nat
  | _, [] => 0
  | inTok, c :: cs =>
    if isWs c then countTokensCore false cs
    else (if inTok then 0 else 1) + countTokensCore true cs

/-- Modelled from the spec: "the number of whitespace-separated words in
the trimmed content". -/
def specWordCount (content : List Char) : Nat :=
  countTokensCore false (trim content)

end Blog

namespace Blog

/-- `stripSlashes` from `src/utils/path.ts`:
`path.replace(/^\/+|\/+$/g, "")`, i.e. drop the leading and the trailing
run of slashes. -/
def stripSlashes (path : List Char) : List Char :=
  ((path.dropWhile (· = '/')).reverse.dropWhile (· = '/')).reverse

/-- `removeTrailingSlash` from `src/utils/path.ts`:
`path.endsWith("/") && path !== "/" ? path.slice(0, -1) : path`. -/
def removeTrailingSlash (path : List Char) : List Char :=
  if path.getLast? = some '/' ∧ path ≠ ['/'] then path.dropLast else path

/-- `FormatUrlOptions` from `src/utils/path.ts`; absent fields are `none`. -/
structure FormatUrlOptions where
  trailingSlash : Option Bool := none
  leadingSlash : Option Bool := none

/-- `formatUrl` from `src/utils/path.ts`: merge the options over
`DEFAULT_FORMAT_OPTIONS` (both defaults `true`), strip all outer slashes,
then re-attach the configured slashes. -/
def formatUrl (path : List Char) (options : FormatUrlOptions := {}) : List Char :=
  let trailingSlash := options.trailingSlash.getD true
  let leadingSlash := options.leadingSlash.getD true
  let cleanPath := stripSlashes path
  let url := cleanPath
  let url := if leadingSlash then '/' :: url else url
  let url := if trailingSlash then url ++ ['/'] else url
  url

/-- `isPathActive` from `src/utils/path.ts`. -/
def isPathActive (currentPath targetPath : List Char) : Bool :=
  if targetPath = ['/'] ∧ currentPath ≠ ['/'] then false
  else
    let normalizedCurrent := removeTrailingSlash currentPath
    let normalizedTarget := removeTrailingSlash targetPath
    normalizedCurrent = normalizedTarget ||
      (normalizedTarget ≠ ['/'] && normalizedTarget.isPrefixOf normalizedCurrent)

end Blog

namespace Blog

/-- The `data` field of a `CollectionEntry<"blog">` as used by the
utilities: `pubDate` is modelled by `Date.prototype.valueOf`, i.e. the
timestamp in milliseconds, as an integer. -/
structure PostData where
  title : List Char
  description : List Char
  pubDate : Int
  category : List Char
deriving DecidableEq

/-- `BlogPost = CollectionEntry<"blog">` from `src/utils/posts.ts`. -/
structure BlogPost where
  slug : List Char
  data : PostData
  body : Option (List Char)
deriving DecidableEq

/-- `sortByDateDescending` from `src/utils/posts.ts`:
`b.data.pubDate.valueOf() - a.data.pubDate.valueOf()`. -/
def sortByDateDescending (a b : BlogPost) : Int :=
  b.data.pubDate - a.data.pubDate

/-- `getAllPosts` from `src/utils/posts.ts` applied to the collection the
content layer supplies: `posts.sort(sortByDateDescending)`. JavaScript
`Array.prototype.sort` with a consistent comparator is modelled by a
stable sort placing `a` no later than `b` when the comparator is `≤ 0`. -/
def getAllPosts (posts : List BlogPost) : List BlogPost :=
  List.insertionSort (fun a b => sortByDateDescending a b ≤ 0) posts

end Blog

namespace Blog

/-- Environment-supplied configuration read by `src/utils/analytics.ts`
through `import.meta.env`. -/
structure AnalyticsEnv where
  umamiUrl : Option (List Char) := none
  websiteId : Option (List Char) := none
deriving DecidableEq

/-- `UMAMI_URL` from `src/utils/analytics.ts`. -/
def UMAMI_URL (env : AnalyticsEnv) : List Char :=
  env.umamiUrl.getD "https://analytics.kumak.dev".toList

/-- `WEBSITE_ID` from `src/utils/analytics.ts`. -/
def WEBSITE_ID (env : AnalyticsEnv) : List Char :=
  env.websiteId.getD "9a78de62-6e9d-4d7b-8e0c-998a85550282".toList

/-- `SITE_ORIGIN` from `src/utils/analytics.ts`. -/
def SITE_ORIGIN : List Char := "https://kumak.dev".toList

/-- `BROWSER_UA` from `src/utils/analytics.ts`. -/
def BROWSER_UA : List Char :=
  "Mozilla/5.0 (X11; Linux x86_64) AppleWebKit/537.36 (KHTML, like Gecko) Chrome/120.0.0.0 Safari/537.36".toList

/-- `TrackEventOptions` from `src/utils/analytics.ts`. -/
structure TrackEventOptions where
  eventName : List Char
  url : List Char
  title : List Char
  userAgent : Option (List Char) := none
  referrer : Option (List Char) := none
deriving DecidableEq

/-- The `data` object of the Umami payload built by `trackEvent`. -/
structure UmamiEventData where
  agent : List Char
  source : List Char
deriving DecidableEq

/-- The `payload` object of the body `trackEvent` posts. -/
structure UmamiPayload where
  website : List Char
  hostname : List Char
  url : List Char
  title : List Char
  screen : List Char
  language : List Char
  referrer : List Char
  name : List Char
  data : UmamiEventData
deriving DecidableEq

/-- One outgoing `fetch` call: the I/O effect a tracking function fires. -/
structure HttpRequest where
  url : List Char
  method : List Char
  contentType : List Char
  origin : List Char
  userAgent : List Char
  payloadType : List Char
  payload : UmamiPayload
deriving DecidableEq

/-- `trackEvent` from `src/utils/analytics.ts`, embedded as the list of
I/O effects (outgoing `fetch` calls) one invocation fires. -/
def trackEvent (env : AnalyticsEnv) (options : TrackEventOptions) : List HttpRequest :=
  [{ url := UMAMI_URL env ++ "/api/send".toList
     method := "POST".toList
     contentType := "application/json".toList
     origin := SITE_ORIGIN
     userAgent := BROWSER_UA
     payloadType := "event".toList
     payload :=
      { website := WEBSITE_ID env
        hostname := "kumak.dev".toList
        url := options.url
        title := options.title
        screen := "1920x1080".toList
        language := "en-US".toList
        referrer := []
        name := options.eventName
        data :=
          { agent := options.userAgent.getD "unknown".toList
            source := options.referrer.getD "direct".toList } } }]

/-- `LlmsTrackOptions` from `src/utils/analytics.ts`. -/
structure LlmsTrackOptions where
  url : List Char
  userAgent : Option (List Char) := none
  referrer : Option (List Char) := none
deriving DecidableEq

/-- `trackLlmsRequest` from `src/utils/analytics.ts`. -/
def trackLlmsRequest (env : AnalyticsEnv) (options : LlmsTrackOptions) : List HttpRequest :=
  trackEvent env
    { eventName := "llms-request".toList
      title := "LLMs.txt".toList
      url := options.url
      userAgent := options.userAgent
      referrer := options.referrer }

/-- `trackRssRequest` from `src/utils/analytics.ts`. -/
def trackRssRequest (env : AnalyticsEnv) (userAgent : Option (List Char)) : List HttpRequest :=
  trackEvent env
    { eventName := "rss-fetch".toList
      url := "/rss.xml".toList
      title := "RSS Feed".toList
      userAgent := userAgent
      referrer := none }

end Blog

namespace Blog

/-- `[A-Z]` from the `MDX_PATTERNS` regexes. -/
def isUpper (c : Char) : Bool := 'A' ≤ c && c ≤ 'Z'

/-- `[a-zA-Z]` from the `MDX_PATTERNS` regexes. -/
def isAlpha (c : Char) : Bool := ('a' ≤ c && c ≤ 'z') || isUpper c

/-- Quote characters (double or single) accepted by the module-specifier
part of the import pattern of `MDX_PATTERNS`. -/
def isQuote (c : Char) : Bool := c = '"' || c = Char.ofNat 39

/-- A string consisting of whitespace only (`\s*`). -/
def allWs (l : List Char) : Bool := l.all isWs

/-- Matches `['"].+['"];?\s*` at the whole of `l` (the module-specifier
part of the pattern): as argued from the regex, the trailing `\s*` has to
be the maximal whitespace suffix, and the optional `;` sits directly
before it. -/
def srcTail (l : List Char) : Bool :=
  match l with
  | q :: rest =>
    isQuote q &&
      (let r := rest.reverse.dropWhile isWs
       let r := match r with
         | ';' :: r' => r'
         | _ => r
       match r with
       | q2 :: body => isQuote q2 && !body.isEmpty
       | [] => false)
  | [] => false

/-- Matches `\s+['"].+['"];?\s*` at the whole of `r`. -/
def wsThenSrc (r : List Char) : Bool :=
  (List.range (r.length + 1)).any fun k =>
    decide (1 ≤ k) && allWs (r.take k) && srcTail (r.drop k)

/-- Matches `\s+.+from\s+['"].+['"];?\s*` at the whole of `l`. -/
def importLineTail (l : List Char) : Bool :=
  (List.range (l.length + 1)).any fun i =>
    (List.range (l.length + 1)).any fun j =>
      decide (1 ≤ i) && decide (i + 1 ≤ j) && allWs (l.take i) &&
        ((l.drop j).take 4 == "from".toList) && wsThenSrc ((l.drop j).drop 4)

/-- A whole line matching `^import\s+.+from\s+['"].+['"];?\s*$` (the first
pattern of `MDX_PATTERNS`, multiline). -/
def lineIsImport (l : List Char) : Bool :=
  (l.take 6 == "import".toList) && importLineTail (l.drop 6)

/-- One line contains only whitespace, so that the trailing `\s*$` of the
first pattern swallows it together with the preceding newline. -/
def lineAllWs (l : List Char) : Bool := l.all isWs

/-- The multiline global replace of the import pattern by `""`, expressed
on the list of lines: a matching line and the whitespace-only lines the
trailing `\s*` absorbs collapse into a single empty line (or into a final
empty line when the match runs to the end of the string). The flag is
`true` while consuming the whitespace-only lines after a match. -/
def stripImportsCore : Bool → List (List Char) → List (List Char)
  | false, [] => []
  | false, l :: ls =>
    if lineIsImport l then stripImportsCore true ls
    else l :: stripImportsCore false ls
  | true, [] => [[]]
  | true, l :: ls =>
    if lineAllWs l then stripImportsCore true ls
    else
      [] ::
        (if lineIsImport l then stripImportsCore true ls
         else l :: stripImportsCore false ls)

/-- First `MDX_PATTERNS` pass: `content.replace(/^import.../gm, "")`. -/
def stripImports (content : List Char) : List Char :=
  List.intercalate ['\n'] (stripImportsCore false (content.splitOn '\n'))

/-- Index of the first `>` in `l`, if any. -/
def findGt : List Char → Option Nat
  | [] => none
  | c :: cs => if c = '>' then some 0 else (findGt cs).map (· + 1)

/-- Length of a match of `<[A-Z][a-zA-Z]*[^>]*>` at the start of `l`:
`[^>]*` cannot cross a `>`, so the tag extends to the first `>`. -/
def openTagLen : List Char → Option Nat
  | '<' :: c :: rest => if isUpper c then (findGt rest).map (· + 3) else none
  | _ => none

/-- Length of a match of `<\/[A-Z][a-zA-Z]*>` at the start of `l`. -/
def closeTagLen : List Char → Option Nat
  | '<' :: '/' :: c :: rest =>
    if isUpper c then
      let letters := rest.takeWhile isAlpha
      match rest.drop letters.length with
      | '>' :: _ => some (letters.length + 4)
      | _ => none
    else none
  | _ => none

/-- Length of a match of `<[A-Z][a-zA-Z]*[^>]*\/>` at the start of `l`:
the tag extends to the first `>`, whose predecessor must be `/`. -/
def selfCloseLen : List Char → Option Nat
  | '<' :: c :: rest =>
    if isUpper c then
      match findGt rest with
      | some i =>
        if 1 ≤ i ∧ (rest.take i).getLast? = some '/' then some (i + 3) else none
      | none => none
    else none
  | _ => none

/-- The lazy `[\s\S]*?` search: smallest offset `d` at which a closing tag
matches, together with that tag's length. -/
def findCloseFrom : Nat → List Char → Option (Nat × Nat)
  | _, [] => none
  | d, r@(_ :: rs) =>
    match closeTagLen r with
    | some m2 => some (d, m2)
    | none => findCloseFrom (d + 1) rs

/-- Length of a match of the paired-component pattern
`<[A-Z][a-zA-Z]*[^>]*>[\s\S]*?<\/[A-Z][a-zA-Z]*>` at the start of `l`. -/
def pairTagMatchLen (l : List Char) : Option Nat :=
  match openTagLen l with
  | some m =>
    match findCloseFrom 0 (l.drop m) with
    | some (d, m2) => some (m + d + m2)
    | none => none
  | none => none

/-- Global replace of the paired-component pattern by `""`: left-to-right
scan, resuming after each match. `fuel` bounds the recursion; it is set to
the string length, which suffices since every step consumes a character. -/
def replacePairTagsAux : Nat → List Char → List Char
  | 0, l => l
  | _ + 1, [] => []
  | fuel + 1, l@(c :: cs) =>
    match pairTagMatchLen l with
    | some m => replacePairTagsAux fuel (l.drop m)
    | none => c :: replacePairTagsAux fuel cs

/-- Second `MDX_PATTERNS` pass. -/
def replacePairTags (l : List Char) : List Char :=
  replacePairTagsAux l.length l

/-- Global replace of the self-closing-component pattern by `""`. -/
def replaceSelfCloseAux : Nat → List Char → List Char
  | 0, l => l
  | _ + 1, [] => []
  | fuel + 1, l@(c :: cs) =>
    match selfCloseLen l with
    | some m => replaceSelfCloseAux fuel (l.drop m)
    | none => c :: replaceSelfCloseAux fuel cs

/-- Third `MDX_PATTERNS` pass. -/
def replaceSelfClose (l : List Char) : List Char :=
  replaceSelfCloseAux l.length l

/-- `stripMdx` from `src/utils/llms.ts`: the three `MDX_PATTERNS`
replacements in order, then `trim`. -/
def stripMdx (content : List Char) : List Char :=
  trim (replaceSelfClose (replacePairTags (stripImports content)))

/-- Whether a closing component tag `</X...>` occurs anywhere in `l`. -/
def hasClosingTag : List Char → Bool
  | [] => false
  | l@(_ :: cs) => (closeTagLen l).isSome || hasClosingTag cs

end Blog

namespace Blog

/-- `LlmsItem` from `src/utils/llms.ts`. -/
structure LlmsItem where
  title : List Char
  description : List Char
  link : List Char
deriving DecidableEq

/-- `LlmsTxtConfig` from `src/utils/llms.ts`. -/
structure LlmsTxtConfig where
  name : List Char
  description : List Char
  site : List Char
  items : List LlmsItem
  optional : Option (List LlmsItem) := none
deriving DecidableEq

/-- A `Response` with a text body, as produced by `doc`. -/
structure TextResponse where
  body : List Char
  contentType : List Char
deriving DecidableEq

/-- Scanner for `content.replace(/\n\x7b3,\x7d/g, "\n\n")`: `k` counts the
newlines of the current run already seen; runs of three or more newlines
keep only their first two. -/
def collapseNlCore : Nat → List Char → List Char
  | _, [] => []
  | k, c :: cs =>
    if c = '\n' then
      if 2 ≤ k then collapseNlCore (k + 1) cs
      else '\n' :: collapseNlCore (k + 1) cs
    else c :: collapseNlCore 0 cs

/-- The newline-collapsing replace inside `doc`. -/
def collapseNewlines (s : List Char) : List Char :=
  collapseNlCore 0 s

/-- `doc` from `src/utils/llms.ts`: flatten the sections, join the lines
with `\n`, collapse runs of three or more newlines, trim, and serve the
result plus a final newline as `text/plain`. -/
def doc (sections : List (List (List Char))) : TextResponse :=
  let content := trim (collapseNewlines (List.intercalate ['\n'] sections.flatten))
  { body := content ++ ['\n']
    contentType := "text/plain; charset=utf-8".toList }

/-- `header` from `src/utils/llms.ts`. -/
def header (name description : List Char) : List (List Char) :=
  ["# ".toList ++ name, [], "> ".toList ++ description]

/-- The line `linkList` emits for one item. -/
def llmsItemLine (site : List Char) (item : LlmsItem) : List Char :=
  "- [".toList ++ item.title ++ "](".toList ++ site ++ item.link ++ "): ".toList ++
    item.description

/-- `linkList` from `src/utils/llms.ts`. -/
def linkList (title : List Char) (items : List LlmsItem) (site : List Char) :
    List (List Char) :=
  [[], "## ".toList ++ title] ++ items.map (llmsItemLine site)

/-- `llmsTxt` from `src/utils/llms.ts`: header and Posts sections, plus an
Optional section when `config.optional?.length` is truthy. -/
def llmsTxt (config : LlmsTxtConfig) : TextResponse :=
  doc
    ([header config.name config.description,
      linkList "Posts".toList config.items config.site] ++
      (match config.optional with
       | some l => if l.isEmpty then [] else [linkList "Optional".toList l config.site]
       | none => []))

/-- The body of a response, as the list of its lines. -/
def bodyLines (r : TextResponse) : List (List Char) :=
  r.body.splitOn '\n'

/-- The line layout `llmsTxt` is specified to produce. -/
def llmsTxtLines (config : LlmsTxtConfig) : List (List Char) :=
  ["# ".toList ++ config.name, [], "> ".toList ++ config.description, [],
    "## Posts".toList] ++
    config.items.map (llmsItemLine config.site) ++
    (match config.optional with
     | some l =>
        if l.isEmpty then []
        else [[], "## Optional".toList] ++ l.map (llmsItemLine config.site)
     | none => []) ++
    [[]]

/-- The last character of a string is not whitespace (vacuous for `[]`). -/
def lastNotWs (l : List Char) : Bool :=
  match l.getLast? with
  | some c => !isWs c
  | none => true

/-- Well-formedness of one item for the line-layout statement: fields are
newline-free, and the description is nonempty and does not end in
whitespace (so the final `trim` of `doc` cannot eat into an item line). -/
def goodItem (item : LlmsItem) : Bool :=
  decide ('\n' ∉ item.title) && decide ('\n' ∉ item.link) &&
    decide ('\n' ∉ item.description) && !item.description.isEmpty &&
    lastNotWs item.description

/-- Well-formedness of a config for the line-layout statement. -/
def goodConfig (config : LlmsTxtConfig) : Bool :=
  decide ('\n' ∉ config.name) && decide ('\n' ∉ config.description) &&
    decide ('\n' ∉ config.site) && config.items.all goodItem &&
    (match config.optional with
     | some l => l.all goodItem
     | none => true)

/-- The lines of the generated document before the final newline. -/
def preLines (config : LlmsTxtConfig) : List (List Char) :=
  ["# ".toList ++ config.name, [], "> ".toList ++ config.description, [],
    "## Posts".toList] ++
    config.items.map (llmsItemLine config.site) ++
    (match config.optional with
     | some l =>
        if l.isEmpty then []
        else [[], "## Optional".toList] ++ l.map (llmsItemLine config.site)
     | none => [])

end Blog

namespace Blog

theorem head?_dropWhile_not {p : Char → Bool} :
    ∀ {l : List Char} {c : Char}, (l.dropWhile p).head? = some c → p c = false := by
  intro l
  induction l with
  | nil =>
    intro c h
    rw [List.dropWhile_nil] at h
    exact Option.noConfusion h
  | cons a l ih =>
    intro c h
    rw [List.dropWhile_cons] at h
    by_cases hp : p a
    · rw [if_pos hp] at h
      exact ih h
    · rw [if_neg hp] at h
      simp only [List.head?_cons, Option.some.injEq] at h
      subst h
      simp only [Bool.not_eq_true] at hp
      exact hp

theorem trim_getLast?_not_ws {s : List Char} {c : Char}
    (h : (trim s).getLast? = some c) : isWs c = false := by
  unfold trim at h
  rw [List.getLast?_reverse] at h
  exact head?_dropWhile_not h

theorem trim_head?_not_ws {s : List Char} {c : Char}
    (h : (trim s).head? = some c) : isWs c = false := by
  unfold trim at h
  set u := s.dropWhile isWs with hu
  have hsuff : (u.reverse.dropWhile isWs) <:+ u.reverse := List.dropWhile_suffix _
  have hpre : (u.reverse.dropWhile isWs).reverse <+: u := by
    simpa using hsuff.reverse
  obtain ⟨t, ht⟩ := hpre
  by_cases hne : (u.reverse.dropWhile isWs).reverse = []
  · rw [hne] at h; simp at h
  · have : u.head? = some c := by
      rw [← ht, List.head?_append_of_ne_nil _ hne]
      exact h
    exact head?_dropWhile_not (hu ▸ this)

theorem splitWsCore_length :
    ∀ t : List Char, (∀ c, t.getLast? = some c → isWs c = false) →
      (∀ acc, (splitWsCore false t acc).length = countTokensCore true t + 1) ∧
      (t ≠ [] → ∀ acc, (splitWsCore true t acc).length = countTokensCore false t) := by
  intro t
  induction t with
  | nil =>
    intro _
    refine ⟨fun acc => by simp [splitWsCore, countTokensCore], fun h => absurd rfl h⟩
  | cons c cs ih =>
    intro h
    have hcs : ∀ c', cs.getLast? = some c' → isWs c' = false := by
      intro c' hc'
      cases cs with
      | nil => simp at hc'
      | cons b l => exact h c' (by rw [List.getLast?_cons_cons]; exact hc')
    have ihcs := ih hcs
    by_cases hws : isWs c
    · have hne : cs ≠ [] := by
        intro hnil
        subst hnil
        have := h c (by simp)
        simp [this] at hws
      constructor
      · intro acc
        simp only [splitWsCore, hws, countTokensCore, if_true, if_false,
          Bool.false_eq_true, List.length_cons]
        rw [ihcs.2 hne []]
      · intro _ acc
        simp only [splitWsCore, hws, countTokensCore, if_true]
        exact ihcs.2 hne acc
    · constructor
      · intro acc
        simp only [splitWsCore, hws, countTokensCore, if_false, Bool.false_eq_true]
        rw [ihcs.1 (c :: acc)]
        simp
      · intro _ acc
        simp only [splitWsCore, hws, countTokensCore, if_false, Bool.false_eq_true]
        rw [ihcs.1 (c :: acc)]
        simp [Nat.add_comm]

theorem countWords_eq_max (s : List Char) :
    countWords s = max 1 (specWordCount s) := by
  unfold countWords specWordCount splitWs
  have hlen := (splitWsCore_length (trim s) (fun _ h => trim_getLast?_not_ws h)).1 []
  rw [hlen]
  cases htrim : trim s with
  | nil => simp [countTokensCore]
  | cons c cs =>
    have hlead : isWs c = false := trim_head?_not_ws (by rw [htrim]; rfl)
    simp only [countTokensCore, hlead, Bool.false_eq_true, if_false, if_true]
    omega

theorem removeTrailingSlash_concat_slash {l : List Char} (h : l ≠ []) :
    removeTrailingSlash (l ++ ['/']) = l := by
  unfold removeTrailingSlash
  rw [if_pos, List.dropLast_concat]
  refine ⟨List.getLast?_concat l, ?_⟩
  intro heq
  have : l.length + 1 = 1 := by simpa using congrArg List.length heq
  exact h (List.length_eq_zero.mp (by omega))

theorem removeTrailingSlash_of_no_slash {l : List Char} (h : l.getLast? ≠ some '/') :
    removeTrailingSlash l = l := by
  unfold removeTrailingSlash
  rw [if_neg]
  intro hc
  exact h hc.1

theorem formatUrl_default_eq (s : List Char) :
    formatUrl s {} = ('/' :: stripSlashes s) ++ ['/'] := by
  simp [formatUrl]

theorem getAllPosts_perm (posts : List BlogPost) : (getAllPosts posts).Perm posts :=
  List.perm_insertionSort _ _

theorem getAllPosts_chain (posts : List BlogPost) :
    List.Chain' (fun a b => b.data.pubDate ≤ a.data.pubDate) (getAllPosts posts) := by
  haveI : IsTotal BlogPost (fun a b => sortByDateDescending a b ≤ 0) :=
    ⟨fun a b => by
      simp only [sortByDateDescending, sub_nonpos]
      exact le_total _ _⟩
  haveI : IsTrans BlogPost (fun a b => sortByDateDescending a b ≤ 0) :=
    ⟨fun a b c hab hbc => by
      simp only [sortByDateDescending, sub_nonpos] at *
      exact le_trans hbc hab⟩
  have h := List.sorted_insertionSort (fun a b => sortByDateDescending a b ≤ 0) posts
  have h' : List.Pairwise (fun a b : BlogPost => b.data.pubDate ≤ a.data.pubDate)
      (getAllPosts posts) := by
    refine h.imp ?_
    intro a b hab
    simpa only [sortByDateDescending, sub_nonpos] using hab
  exact h'.chain'

/-- Claim C1, as stated, is false: there is no input collection on which
`getAllPosts` filters posts away or truncates the list — the result is a
permutation of the full collection for every input. -/
theorem claimC1_counterexample :
    ¬ ∃ posts : List BlogPost, ¬ (getAllPosts posts).Perm posts := by
  rintro ⟨posts, h⟩
  exact h (getAllPosts_perm posts)

/-- Claim C1 (amended): `getAllPosts` performs no in-memory filtering and
no limiting, only sorting — for every collection the result is a
permutation of the collection, of the same length. -/
theorem claimC1_theorem :
    ∀ posts : List BlogPost,
      (getAllPosts posts).Perm posts ∧ (getAllPosts posts).length = posts.length :=
  fun posts => ⟨getAllPosts_perm posts, (getAllPosts_perm posts).length_eq⟩

/-- Claim C2: for every post collection, `getAllPosts` returns a
permutation of the collection in which every adjacent pair is ordered by
publication date, newest first. -/
theorem claimC2_theorem :
    ∀ posts : List BlogPost,
      (getAllPosts posts).Perm posts ∧
        List.Chain' (fun a b => b.data.pubDate ≤ a.data.pubDate) (getAllPosts posts) :=
  fun posts => ⟨getAllPosts_perm posts, getAllPosts_chain posts⟩

/-- Claim C3, as stated, is false: a concrete run of `trackRssRequest`
fires an outgoing HTTP request, so not every function of the codebase is
free of I/O. -/
theorem claimC3_counterexample :
    trackRssRequest {} none ≠ [] := by
  simp [trackRssRequest, trackEvent]

/-- Claim C3 (amended): the claim's purity sentence fails for the very
functions it names — each run of `trackEvent` performs exactly one I/O
effect, an HTTP POST to the Umami `/api/send` endpoint, although the
request it fires is determined by its inputs; `trackLlmsRequest` and
`trackRssRequest` delegate to `trackEvent` with fixed event names, so the
same holds for them. -/
theorem claimC3_theorem :
    (∀ env opts, (trackEvent env opts).length = 1 ∧
      ∀ r ∈ trackEvent env opts,
        r.method = "POST".toList ∧ r.url = UMAMI_URL env ++ "/api/send".toList) ∧
    (∀ env o, trackLlmsRequest env o =
      trackEvent env ⟨"llms-request".toList, o.url, "LLMs.txt".toList, o.userAgent, o.referrer⟩) ∧
    (∀ env ua, trackRssRequest env ua =
      trackEvent env ⟨"rss-fetch".toList, "/rss.xml".toList, "RSS Feed".toList, ua, none⟩) := by
  refine ⟨fun env opts => ⟨rfl, ?_⟩, fun env o => rfl, fun env ua => rfl⟩
  intro r hr
  simp only [trackEvent, List.mem_singleton] at hr
  subst hr
  exact ⟨rfl, rfl⟩

/-- Witness for the amended claim C3 at a concrete environment and event. -/
theorem claimC3_witness :
    (trackEvent {}
        ⟨"rss-fetch".toList, "/rss.xml".toList, "RSS Feed".toList, none, none⟩).length = 1 ∧
      ∀ r ∈ trackEvent {}
          ⟨"rss-fetch".toList, "/rss.xml".toList, "RSS Feed".toList, none, none⟩,
        r.method = "POST".toList ∧ r.url = UMAMI_URL {} ++ "/api/send".toList :=
  claimC3_theorem.1 {} _

/-- Claim C4, as stated, is false at the empty string: the code counts the
single empty token of `"".split(/\s+/)` as a word and returns a reading
time of 1, while the ceiling of (number of whitespace-separated words =
0) / 200 is 0. -/
theorem claimC4_counterexample :
    ¬ (estimateReadingTime [] =
        (specWordCount [] + (WORDS_PER_MINUTE - 1)) / WORDS_PER_MINUTE) := by
  decide

/-- Claim C4 (amended): for every string, `estimateReadingTime` equals the
ceiling of `max 1 w / 200`, where `w` is the number of whitespace-separated
words in the trimmed content — the word count is clamped below by 1
because splitting an empty trimmed string yields one empty token. -/
theorem claimC4_theorem :
    ∀ content : List Char,
      estimateReadingTime content =
        (max 1 (specWordCount content) + (WORDS_PER_MINUTE - 1)) / WORDS_PER_MINUTE := by
  intro content
  unfold estimateReadingTime
  rw [countWords_eq_max]

/-- Claim C9: `estimateReadingTime` never returns 0 — every string gets a
reading time of at least 1; in particular the empty string yields 1,
because the split of the trimmed empty string is the single empty token,
counted as one word. -/
theorem claimC9_theorem :
    (∀ content : List Char, 1 ≤ estimateReadingTime content) ∧
      estimateReadingTime [] = 1 ∧ countWords [] = 1 ∧ splitWs (trim []) = [[]] := by
  refine ⟨fun content => ?_, by decide, by decide, by decide⟩
  have h1 : 1 ≤ countWords content := by
    rw [countWords_eq_max]
    exact le_max_left _ _
  unfold estimateReadingTime WORDS_PER_MINUTE
  rw [Nat.le_div_iff_mul_le (by norm_num)]
  omega

/-- Claim C7, as stated, is false: with `currentPath = ""` (which differs
from `"/"`) and `targetPath = "/"`, appending a trailing slash to the
current path changes the result of `isPathActive`. -/
theorem claimC7_counterexample :
    isPathActive ("".toList ++ ['/']) "/".toList ≠ isPathActive "".toList "/".toList := by
  decide

/-- Claim C7 (amended): `isPathActive` is insensitive to a single trailing
slash on either argument whenever the unmodified argument is nonempty and
does not itself end in a slash (appending/removing a slash on `""`, `"/"`
or a slash-terminated path can change the result). -/
theorem claimC7_theorem :
    ∀ cur tgt : List Char,
      (cur ≠ [] → cur.getLast? ≠ some '/' →
        isPathActive (cur ++ ['/']) tgt = isPathActive cur tgt) ∧
      (tgt ≠ [] → tgt.getLast? ≠ some '/' →
        isPathActive cur (tgt ++ ['/']) = isPathActive cur tgt) := by
  intro cur tgt
  constructor
  · intro hne hlast
    have hcur : removeTrailingSlash (cur ++ ['/']) = removeTrailingSlash cur := by
      rw [removeTrailingSlash_concat_slash hne, removeTrailingSlash_of_no_slash hlast]
    have hc1 : cur ++ ['/'] ≠ ['/'] := by
      intro heq
      have : cur.length + 1 = 1 := by simpa using congrArg List.length heq
      exact hne (List.length_eq_zero.mp (by omega))
    have hc2 : cur ≠ ['/'] := by
      intro heq
      subst heq
      exact hlast rfl
    by_cases ht : tgt = ['/']
    · simp [isPathActive, ht, hc1, hc2]
    · simp only [isPathActive, hcur, ht, false_and, if_false]
  · intro hne hlast
    have htgt : removeTrailingSlash (tgt ++ ['/']) = removeTrailingSlash tgt := by
      rw [removeTrailingSlash_concat_slash hne, removeTrailingSlash_of_no_slash hlast]
    have hc1 : tgt ++ ['/'] ≠ ['/'] := by
      intro heq
      have : tgt.length + 1 = 1 := by simpa using congrArg List.length heq
      exact hne (List.length_eq_zero.mp (by omega))
    have hc2 : tgt ≠ ['/'] := by
      intro heq
      subst heq
      exact hlast rfl
    simp only [isPathActive, htgt, hc1, hc2, false_and, if_false]

/-- Witness for the amended claim C7 at concrete paths. -/
theorem claimC7_witness :
    isPathActive ("/blog".toList ++ ['/']) "/b".toList =
        isPathActive "/blog".toList "/b".toList ∧
      isPathActive "/x".toList ("/b".toList ++ ['/']) =
        isPathActive "/x".toList "/b".toList :=
  ⟨(claimC7_theorem _ _).1 (by decide) (by decide),
   (claimC7_theorem _ _).2 (by decide) (by decide)⟩

/-- Claim C8: `isPathActive` matches nested routes by raw string prefix on
the trailing-slash-normalized paths, without requiring a path-segment
boundary. -/
theorem claimC8_theorem :
    ∀ cur tgt : List Char, removeTrailingSlash tgt ≠ ['/'] →
      (removeTrailingSlash tgt).isPrefixOf (removeTrailingSlash cur) = true →
      isPathActive cur tgt = true := by
  intro cur tgt hn hp
  have ht : tgt ≠ ['/'] := by
    intro h
    subst h
    exact hn rfl
  simp only [isPathActive]
  rw [if_neg]
  · simp [hn, hp]
  · intro hc
    exact ht hc.1

/-- Witness for claim C8: `/about-us` is reported active for target
`/about` even though it is not a subroute of it. -/
theorem claimC8_witness :
    isPathActive "/about-us".toList "/about".toList = true :=
  claimC8_theorem _ _ (by decide) (by decide)

/-- Claim C10: with default options `formatUrl` always returns a string
that begins and ends with a slash, and on inputs consisting solely of
slashes (including the empty string) it returns exactly `//`. -/
theorem claimC10_theorem :
    (∀ s : List Char,
        (formatUrl s {}).head? = some '/' ∧ (formatUrl s {}).getLast? = some '/') ∧
      ∀ s : List Char, (∀ c ∈ s, c = '/') → formatUrl s {} = ['/', '/'] := by
  constructor
  · intro s
    rw [formatUrl_default_eq]
    exact ⟨rfl, List.getLast?_concat _⟩
  · intro s hs
    rw [formatUrl_default_eq]
    have h1 : s.dropWhile (· = '/') = [] :=
      List.dropWhile_eq_nil_iff.mpr (fun x hx => by simp [hs x hx])
    unfold stripSlashes
    rw [h1]
    rfl

/-- Witness for claim C10 on a string of slashes and on the empty string. -/
theorem claimC10_witness :
    formatUrl "///".toList {} = ['/', '/'] ∧ formatUrl [] {} = ['/', '/'] :=
  ⟨claimC10_theorem.2 _ (by decide), claimC10_theorem.2 _ (by decide)⟩

/-- Claim C5 names a property `stripMdx` does not have on nested
components: on the post body `<A><B></B></A>` the lazy paired-tag pattern
consumes `<A><B></B>` and the emitted text is exactly the dangling closing
component tag `</A>`. -/
theorem claimC5_theorem :
    stripMdx "<A><B></B></A>".toList = "</A>".toList ∧
      hasClosingTag (stripMdx "<A><B></B></A>".toList) = true := by
  exact ⟨by decide, by decide⟩

theorem collapseNlCore_append_nlFree :
    ∀ l : List Char, '\n' ∉ l → l ≠ [] → ∀ (k : Nat) (r : List Char),
      collapseNlCore k (l ++ r) = l ++ collapseNlCore 0 r := by
  intro l
  induction l with
  | nil => intro _ h; exact absurd rfl h
  | cons c cs ih =>
    intro hnl _ k r
    have hc : ¬(c = '\n') := fun h => hnl (h ▸ List.mem_cons_self c cs)
    simp only [List.cons_append, collapseNlCore, if_neg hc]
    cases cs with
    | nil => simp
    | cons d ds =>
      exact congrArg _ (ih (fun h => hnl (List.mem_cons_of_mem _ h)) (by simp) 0 r)

theorem intercalate_nl_nil : List.intercalate ['\n'] ([] : List (List Char)) = [] := by
  simp [List.intercalate]

theorem intercalate_nl_single (l : List Char) : List.intercalate ['\n'] [l] = l := by
  simp [List.intercalate]

theorem intercalate_nl_cons (x y : List Char) (t : List (List Char)) :
    List.intercalate ['\n'] (x :: y :: t) = x ++ '\n' :: List.intercalate ['\n'] (y :: t) := by
  simp [List.intercalate]

theorem collapseNlCore_nl_cons {k : Nat} (hk : ¬ 2 ≤ k) (m : List Char) :
    collapseNlCore k ('\n' :: m) = '\n' :: collapseNlCore (k + 1) m := by
  simp [collapseNlCore, hk]

theorem collapse_intercalate :
    ∀ L : List (List Char), (∀ l ∈ L, '\n' ∉ l) →
      List.Chain' (fun a b => a ≠ [] ∨ b ≠ []) L →
      ∀ k : Nat, (2 ≤ k → ∀ h, L.head? = some h → h ≠ []) →
      collapseNlCore k (List.intercalate ['\n'] L) = List.intercalate ['\n'] L := by
  intro L
  induction L with
  | nil =>
    intro _ _ k _
    rw [intercalate_nl_nil]
    rfl
  | cons l L' ih =>
    intro hnl hch k hk
    cases L' with
    | nil =>
      rw [intercalate_nl_single]
      by_cases hl : l = []
      · subst hl
        rfl
      · have := collapseNlCore_append_nlFree l (hnl l (by simp)) hl k []
        simpa [collapseNlCore] using this
    | cons l2 t =>
      rw [intercalate_nl_cons]
      by_cases hl : l = []
      · have hk1 : k ≤ 1 := by
          by_contra h
          exact hk (by omega) l rfl hl
        subst hl
        simp only [List.nil_append]
        rw [collapseNlCore_nl_cons (by omega)]
        congr 1
        refine ih (fun x hx => hnl x (List.mem_cons_of_mem _ hx)) hch.tail (k + 1) ?_
        intro h2 h' hh'
        have hl2 : l2 ≠ [] := by
          rcases (List.chain'_cons.mp hch).1 with h | h
          · exact absurd rfl h
          · exact h
        simp only [List.head?_cons, Option.some.injEq] at hh'
        exact hh' ▸ hl2
      · rw [collapseNlCore_append_nlFree l (hnl l (by simp)) hl k _]
        congr 1
        rw [collapseNlCore_nl_cons (by omega)]
        congr 1
        exact ih (fun x hx => hnl x (List.mem_cons_of_mem _ hx)) hch.tail 1 (by omega)

theorem dropWhile_eq_self_of_head {p : Char → Bool} {l : List Char}
    (h : ∀ c, l.head? = some c → p c = false) : l.dropWhile p = l := by
  cases l with
  | nil => rfl
  | cons a l => rw [List.dropWhile_cons, if_neg (by simp [h a rfl])]

theorem trim_eq_self {l : List Char}
    (hh : ∀ c, l.head? = some c → isWs c = false)
    (hl : ∀ c, l.getLast? = some c → isWs c = false) : trim l = l := by
  unfold trim
  rw [dropWhile_eq_self_of_head hh,
    dropWhile_eq_self_of_head (fun c hc => hl c (by rwa [List.head?_reverse] at hc)),
    List.reverse_reverse]

theorem intercalate_nl_head? {l : List Char} (L : List (List Char)) (h : l ≠ []) :
    (List.intercalate ['\n'] (l :: L)).head? = l.head? := by
  cases L with
  | nil => rw [intercalate_nl_single]
  | cons y t =>
    rw [intercalate_nl_cons]
    exact List.head?_append_of_ne_nil _ h

theorem intercalate_nl_getLast? :
    ∀ (L : List (List Char)) (l : List Char), L.getLast? = some l → l ≠ [] →
      (List.intercalate ['\n'] L).getLast? = l.getLast? := by
  intro L
  induction L with
  | nil => intro l h _; exact Option.noConfusion h
  | cons x t ih =>
    intro l h hne
    cases t with
    | nil =>
      simp only [List.getLast?_singleton, Option.some.injEq] at h
      rw [intercalate_nl_single, h]
    | cons y t2 =>
      rw [List.getLast?_cons_cons] at h
      rw [intercalate_nl_cons]
      have hm := ih l h hne
      have hmne : List.intercalate ['\n'] (y :: t2) ≠ [] := by
        intro h0
        rw [h0] at hm
        have : l.getLast? = none := hm.symm
        exact hne (List.getLast?_eq_none_iff.mp this)
      rw [List.getLast?_append_of_ne_nil _ (List.cons_ne_nil '\n' _)]
      rw [show ('\n' :: List.intercalate ['\n'] (y :: t2)) =
        ['\n'] ++ List.intercalate ['\n'] (y :: t2) from rfl]
      rw [List.getLast?_append_of_ne_nil _ hmne]
      exact hm

theorem intercalate_nl_snoc :
    ∀ (L : List (List Char)) (x : List Char), L ≠ [] →
      List.intercalate ['\n'] (L ++ [x]) =
        List.intercalate ['\n'] L ++ '\n' :: x := by
  intro L
  induction L with
  | nil => intro x h; exact absurd rfl h
  | cons a t ih =>
    intro x _
    cases t with
    | nil =>
      rw [show ([a] ++ [x] : List (List Char)) = [a, x] from rfl, intercalate_nl_cons,
        intercalate_nl_single, intercalate_nl_single]
    | cons b t2 =>
      have h2 := ih x (by simp)
      simp only [List.cons_append] at h2 ⊢
      rw [intercalate_nl_cons, intercalate_nl_cons, h2]
      simp [List.append_assoc]

theorem lastNotWs_spec {l : List Char} (h : lastNotWs l = true) :
    ∀ c, l.getLast? = some c → isWs c = false := by
  intro c hc
  unfold lastNotWs at h
  rw [hc] at h
  simpa using h

theorem llmsItemLine_ne_nil (site : List Char) (it : LlmsItem) :
    llmsItemLine site it ≠ [] := by
  simp [llmsItemLine]

theorem goodItem_fields {it : LlmsItem} (h : goodItem it = true) :
    '\n' ∉ it.title ∧ '\n' ∉ it.link ∧ '\n' ∉ it.description ∧
      it.description ≠ [] ∧ lastNotWs it.description = true := by
  simp only [goodItem, Bool.and_eq_true, decide_eq_true_eq, Bool.not_eq_true',
    List.isEmpty_eq_false] at h
  exact ⟨h.1.1.1.1, h.1.1.1.2, h.1.1.2, h.1.2, h.2⟩

theorem goodConfig_fields {cfg : LlmsTxtConfig} (h : goodConfig cfg = true) :
    '\n' ∉ cfg.name ∧ '\n' ∉ cfg.description ∧ '\n' ∉ cfg.site ∧
      (∀ it ∈ cfg.items, goodItem it = true) ∧
      (∀ l, cfg.optional = some l → ∀ it ∈ l, goodItem it = true) := by
  simp only [goodConfig, Bool.and_eq_true, decide_eq_true_eq] at h
  refine ⟨h.1.1.1.1, h.1.1.1.2, h.1.1.2, List.all_eq_true.mp h.1.2, ?_⟩
  intro l hl it hit
  rw [hl] at h
  exact List.all_eq_true.mp h.2 it hit

theorem nl_not_mem_itemLine {site : List Char} {it : LlmsItem}
    (hsite : '\n' ∉ site) (h : goodItem it = true) :
    '\n' ∉ llmsItemLine site it := by
  obtain ⟨ht, hl, hd, _, _⟩ := goodItem_fields h
  simp only [llmsItemLine, List.mem_append]
  rintro ((((((hc | hc) | hc) | hc) | hc) | hc) | hc) <;>
    first
      | exact ht hc
      | exact hl hc
      | exact hd hc
      | exact hsite hc
      | revert hc; decide

theorem itemLine_getLast?_not_ws {site : List Char} {it : LlmsItem}
    (h : goodItem it = true) :
    ∀ c, (llmsItemLine site it).getLast? = some c → isWs c = false := by
  obtain ⟨_, _, _, hdesc, hlast⟩ := goodItem_fields h
  intro c hc
  unfold llmsItemLine at hc
  rw [List.getLast?_append_of_ne_nil _ hdesc] at hc
  exact lastNotWs_spec hlast c hc

theorem chain'_map_itemLine (site : List Char) (its : List LlmsItem)
    (next : List (List Char))
    (hnext : List.Chain' (fun a b => a ≠ [] ∨ b ≠ []) next) :
    List.Chain' (fun a b => a ≠ [] ∨ b ≠ [])
      (its.map (llmsItemLine site) ++ next) := by
  induction its with
  | nil => simpa
  | cons x xs ih =>
    rw [List.map_cons, List.cons_append, List.chain'_cons']
    exact ⟨fun y _ => Or.inl (llmsItemLine_ne_nil site x), ih⟩

theorem llmsTxt_body (cfg : LlmsTxtConfig) :
    (llmsTxt cfg).body =
      trim (collapseNewlines (List.intercalate ['\n'] (preLines cfg))) ++ ['\n'] := by
  rcases hopt : cfg.optional with _ | l
  · simp [llmsTxt, doc, hopt, header, linkList, preLines]
  · by_cases hl : l.isEmpty
    · simp [llmsTxt, doc, hopt, hl, header, linkList, preLines]
    · simp [llmsTxt, doc, hopt, hl, header, linkList, preLines]

theorem llmsTxtLines_eq (cfg : LlmsTxtConfig) :
    llmsTxtLines cfg = preLines cfg ++ [[]] := by
  rcases hopt : cfg.optional with _ | l
  · simp [llmsTxtLines, preLines, hopt]
  · by_cases hl : l.isEmpty <;>
      simp [llmsTxtLines, preLines, hopt, hl, List.append_assoc]

theorem preLines_ne_nil (cfg : LlmsTxtConfig) : preLines cfg ≠ [] := by
  simp [preLines]

theorem preLines_nlFree {cfg : LlmsTxtConfig} (h : goodConfig cfg = true) :
    ∀ l ∈ preLines cfg, '\n' ∉ l := by
  obtain ⟨hn, hd, hs, hitems, hoptall⟩ := goodConfig_fields h
  intro l hl
  unfold preLines at hl
  simp only [List.mem_append, List.mem_cons, List.not_mem_nil, or_false] at hl
  rcases hl with ((hc | hc | hc | hc | hc) | hc) | hc
  · subst hc
    simp only [List.mem_append]
    rintro (hm | hm)
    · revert hm; decide
    · exact hn hm
  · subst hc; simp
  · subst hc
    simp only [List.mem_append]
    rintro (hm | hm)
    · revert hm; decide
    · exact hd hm
  · subst hc; simp
  · subst hc; decide
  · obtain ⟨it, hit, rfl⟩ := List.mem_map.mp hc
    exact nl_not_mem_itemLine hs (hitems it hit)
  · revert hc
    rcases hopt : cfg.optional with _ | opt
    · simp
    · intro hc
      dsimp only at hc
      by_cases he : opt.isEmpty
      · rw [if_pos he] at hc
        simp at hc
      · rw [if_neg he] at hc
        simp only [List.cons_append, List.nil_append, List.mem_cons] at hc
        rcases hc with hc | hc | hc
        · subst hc; simp
        · subst hc; decide
        · obtain ⟨it, hit, rfl⟩ := List.mem_map.mp hc
          exact nl_not_mem_itemLine hs (hoptall opt hopt it hit)

theorem preLines_chain (cfg : LlmsTxtConfig) :
    List.Chain' (fun a b => a ≠ [] ∨ b ≠ []) (preLines cfg) := by
  unfold preLines
  simp only [List.cons_append, List.nil_append]
  rw [List.chain'_cons']
  refine ⟨fun y _ => Or.inl (by simp), ?_⟩
  rw [List.chain'_cons']
  refine ⟨fun y hy => by simp only [List.head?_cons, Option.mem_def,
    Option.some.injEq] at hy; exact Or.inr (hy ▸ by simp), ?_⟩
  rw [List.chain'_cons']
  refine ⟨fun y _ => Or.inl (by simp), ?_⟩
  rw [List.chain'_cons']
  refine ⟨fun y hy => by simp only [List.head?_cons, Option.mem_def,
    Option.some.injEq] at hy; exact Or.inr (hy ▸ by simp), ?_⟩
  rw [List.chain'_cons']
  refine ⟨fun y _ => Or.inl (by simp), ?_⟩
  apply chain'_map_itemLine
  rcases cfg.optional with _ | l
  · exact List.chain'_nil
  · dsimp only
    by_cases hl : l.isEmpty
    · rw [if_pos hl]
      exact List.chain'_nil
    · rw [if_neg hl]
      rw [List.chain'_cons']
      refine ⟨fun y hy => by simp only [List.head?_cons, Option.mem_def,
        Option.some.injEq] at hy; exact Or.inr (hy ▸ by simp), ?_⟩
      rw [List.chain'_cons']
      refine ⟨fun y _ => Or.inl (by simp), ?_⟩
      simpa using chain'_map_itemLine cfg.site l [] List.chain'_nil

theorem getLast?_nested_concat (X Y : List (List Char)) (a : List Char) :
    (X ++ (Y ++ [a])).getLast? = some a := by
  rw [← List.append_assoc]
  exact List.getLast?_concat _

theorem preLines_getLast {cfg : LlmsTxtConfig} (h : goodConfig cfg = true) :
    ∃ ll, (preLines cfg).getLast? = some ll ∧ ll ≠ [] ∧
      ∀ c, ll.getLast? = some c → isWs c = false := by
  obtain ⟨_, _, _, hitems, hoptall⟩ := goodConfig_fields h
  have hposts : ∀ c, ("## Posts".toList : List Char).getLast? = some c → isWs c = false := by
    intro c hc
    have h2 : ("## Posts".toList : List Char).getLast? = some 's' := rfl
    rw [h2] at hc
    injection hc with h3
    subst h3
    decide
  have hbase : ∃ ll,
      ((["# ".toList ++ cfg.name, [], "> ".toList ++ cfg.description, [],
          "## Posts".toList] ++
        cfg.items.map (llmsItemLine cfg.site)).getLast? = some ll) ∧ ll ≠ [] ∧
      ∀ c, ll.getLast? = some c → isWs c = false := by
    rcases List.eq_nil_or_concat cfg.items with hit | ⟨its, it, hit⟩
    · rw [hit]
      simp only [List.map_nil, List.append_nil]
      exact ⟨"## Posts".toList, rfl, by decide, hposts⟩
    · rw [List.concat_eq_append] at hit
      have hmem : it ∈ cfg.items := by
        rw [hit]
        exact List.mem_append_right _ (by simp)
      rw [hit, List.map_append, List.map_singleton]
      exact ⟨llmsItemLine cfg.site it, getLast?_nested_concat _ _ _,
        llmsItemLine_ne_nil _ _, itemLine_getLast?_not_ws (hitems it hmem)⟩
  unfold preLines
  rcases hopt : cfg.optional with _ | opt
  · dsimp only
    rw [List.append_nil]
    exact hbase
  · dsimp only
    by_cases he : opt.isEmpty
    · rw [if_pos he, List.append_nil]
      exact hbase
    · rw [if_neg he]
      rcases List.eq_nil_or_concat opt with hoe | ⟨its, it, hoe⟩
      · subst hoe
        simp at he
      · rw [List.concat_eq_append] at hoe
        have hmem : it ∈ opt := by
          rw [hoe]
          exact List.mem_append_right _ (by simp)
        rw [hoe, List.map_append, List.map_singleton]
        refine ⟨llmsItemLine cfg.site it, ?_, llmsItemLine_ne_nil _ _,
          itemLine_getLast?_not_ws (hoptall opt hopt it hmem)⟩
        rw [← List.append_assoc]
        exact getLast?_nested_concat _ _ _

/-- Claim C6, as stated, fails for configs whose fields contain newline
characters: an item titled across two lines does not produce its single
`- [title](site link): description` line in the body. -/
theorem claimC6_counterexample :
    llmsItemLine "S".toList ⟨"A\nB".toList, "d".toList, "/l".toList⟩ ∉
      bodyLines
        (llmsTxt
          { name := "N".toList, description := "D".toList, site := "S".toList,
            items := [⟨"A\nB".toList, "d".toList, "/l".toList⟩], optional := none }) := by
  decide

/-- Claim C6 (amended): for every config whose fields are newline-free and
whose item descriptions are nonempty and do not end in whitespace, the
body of `llmsTxt` is exactly the specified line layout: the `# name` line,
a blank line, the `> description` blockquote, a blank line, `## Posts`,
one `- [title](site link): description` line per item in order, the
`## Optional` section if and only if `optional` is present and nonempty,
and a final newline. -/
theorem claimC6_theorem (cfg : LlmsTxtConfig) (h : goodConfig cfg = true) :
    bodyLines (llmsTxt cfg) = llmsTxtLines cfg := by
  have hnl := preLines_nlFree h
  have hch := preLines_chain cfg
  have hcoll : collapseNewlines (List.intercalate ['\n'] (preLines cfg)) =
      List.intercalate ['\n'] (preLines cfg) :=
    collapse_intercalate _ hnl hch 0 (by omega)
  obtain ⟨ll, hll, hllne, hllws⟩ := preLines_getLast h
  obtain ⟨rest, hrest⟩ :
      ∃ rest, preLines cfg = ("# ".toList ++ cfg.name) :: rest := ⟨_, rfl⟩
  have hhead : ∀ c, (List.intercalate ['\n'] (preLines cfg)).head? = some c →
      isWs c = false := by
    intro c hc
    rw [hrest, intercalate_nl_head? rest (by simp)] at hc
    have h2 : ("# ".toList ++ cfg.name).head? = some '#' := rfl
    rw [h2] at hc
    injection hc with h3
    subst h3
    decide
  have hlastc : ∀ c, (List.intercalate ['\n'] (preLines cfg)).getLast? = some c →
      isWs c = false := by
    intro c hc
    rw [intercalate_nl_getLast? _ _ hll hllne] at hc
    exact hllws c hc
  have htrim := trim_eq_self hhead hlastc
  have hbody : (llmsTxt cfg).body = List.intercalate ['\n'] (preLines cfg ++ [[]]) := by
    rw [llmsTxt_body, hcoll, htrim, intercalate_nl_snoc _ _ (preLines_ne_nil cfg)]
  have hx : ∀ l ∈ preLines cfg ++ [[]], '\n' ∉ l := by
    intro l hl
    rcases List.mem_append.mp hl with h1 | h1
    · exact hnl l h1
    · simp only [List.mem_singleton] at h1
      subst h1
      simp
  unfold bodyLines
  rw [hbody, List.splitOn_intercalate _ '\n' hx (by simp), llmsTxtLines_eq]

/-- Witness for the amended claim C6 at a concrete config with Posts and
Optional sections. -/
theorem claimC6_witness :
    goodConfig
        { name := "Kumak".toList, description := "Blog".toList,
          site := "https://kumak.dev".toList,
          items := [⟨"A".toList, "a post".toList, "/llms/a.txt".toList⟩],
          optional := some [⟨"About".toList, "About the author".toList, "/about".toList⟩] } =
        true ∧
      bodyLines
          (llmsTxt
            { name := "Kumak".toList, description := "Blog".toList,
              site := "https://kumak.dev".toList,
              items := [⟨"A".toList, "a post".toList, "/llms/a.txt".toList⟩],
              optional := some [⟨"About".toList, "About the author".toList, "/about".toList⟩] }) =
        llmsTxtLines
          { name := "Kumak".toList, description := "Blog".toList,
            site := "https://kumak.dev".toList,
            items := [⟨"A".toList, "a post".toList, "/llms/a.txt".toList⟩],
            optional := some [⟨"About".toList, "About the author".toList, "/about".toList⟩] } :=
  ⟨by decide, claimC6_theorem _ (by decide)⟩

end Blog
